import Mathlib

/-!
Verification development for the mongoolastic synchronization layer.

The definitions below are a shallow embedding of the JavaScript source:

* the bulk index buffer of lib/elasticsearch.js (constructor state,
  addToBulkBuffer, tryFlushBulkBuffer, flushBulkBuffer and the callback
  passed to client.bulk);
* the validators isValidIndex / isValidSettings / isValidType / isValidId
  and the validation prefixes of indexExists, deleteIndex and
  ensureDeleteIndex of lib/elasticsearch.js;
* the dotted-path mapping renderer of lib/plugin.js (renderMapping);
* the recursive schema renderers renderMapping / renderPopulationTree of
  the helper module (fuel-instrumented, since the source recursion has no
  cycle guard);
* renderDoc of the helper module;
* the indexDoc / removeDoc lifecycle hook handlers of lib/plugin.js.

JavaScript plain values are modelled by the inductive types JSVal (full
value universe for the validators and renderDoc) and JVal (string-keyed
JSON trees for mappings).  Asynchronous code is modelled by explicit state
passing plus an event step relation; the elasticsearch client is an
external collaborator, so calls to it are recorded in the state
(submissions list) and its responses are separate events.
-/

/-! ## Bulk index buffer (lib/elasticsearch.js) -/

/-- An operation held in the bulk buffer: the pair pushed by
addToBulkBuffer via this.bulkBuffer.push({action, doc}).  In the source
the bulk request body is the flattening that pushes action and doc as two
adjacent entries; we keep the pairs, which carries the same data in the
same order. -/
structure BulkOp (α β : Type) where
  action : α
  doc : β
deriving DecidableEq, Repr

/-- The state of an ElasticsearchProvider relevant to the bulk buffer,
mirroring the constructor fields bulkBuffer, bulkTimer, bulkSize,
bulkTimeout and isFlushingBulkBuffer.  The bulkTimer field is true when a
timer is armed (this.bulkTimer non-null).  The constructor takes no
bulkBufferSize option and the state stores none: the source ignores that
option entirely.  The fields submissions, emitted and pending instrument
the interaction with the external client: submissions records each body
handed to client.bulk in call order, emitted records the arguments of
this.emit, and pending counts bulk calls whose callback has not yet
run. -/
structure ESState (α β ε : Type) where
  bulkBuffer : List (BulkOp α β)
  bulkTimer : Bool
  bulkSize : Nat
  bulkTimeout : Nat
  isFlushingBulkBuffer : Bool
  submissions : List (List (BulkOp α β))
  emitted : List ε
  pending : Nat
deriving DecidableEq, Repr

/-- Result of an enqueue as observed by the caller of addToBulkBuffer:
the promise either fulfills or rejects.  The source never rejects. -/
inductive EnqueueResult where
  | ok
  | overflow
deriving DecidableEq, Repr

/-- The dequeue loop of flushBulkBuffer: shift one operation, then keep
shifting while the count of pushed operations is below bulkSize.  The
count argument is the number of operations already pushed to the body.
Returns the body (as pairs) and the remaining buffer. -/
def flushTakeAux (bulkSize : Nat) : List (BulkOp α β) → Nat → List (BulkOp α β) × List (BulkOp α β)
  | [], _ => ([], [])
  | op :: rest, count =>
      if count + 1 < bulkSize then
        let r := flushTakeAux bulkSize rest (count + 1)
        (op :: r.1, r.2)
      else ([op], rest)

/-- flushBulkBuffer: clear any armed timer, return if a flush is already
in progress, otherwise set the guard, dequeue up to bulkSize operations in
FIFO order and submit them as one bulk body.  The callback given to
client.bulk runs later (see bulkCallback), hence the pending counter. -/
def flushBulkBuffer (s : ESState α β ε) : ESState α β ε :=
  let s1 := { s with bulkTimer := false }
  if s1.isFlushingBulkBuffer then s1
  else
    let r := flushTakeAux s1.bulkSize s1.bulkBuffer 0
    { s1 with
        isFlushingBulkBuffer := true
        bulkBuffer := r.2
        submissions := s1.submissions ++ [r.1]
        pending := s1.pending + 1 }

/-- tryFlushBulkBuffer: nothing to do on an empty buffer; flush
immediately when the queue length reached bulkSize; otherwise arm the
timer if none is armed. -/
def tryFlushBulkBuffer (s : ESState α β ε) : ESState α β ε :=
  if s.bulkBuffer.length = 0 then s
  else if s.bulkBuffer.length ≥ s.bulkSize then flushBulkBuffer s
  else if s.bulkTimer then s
  else { s with bulkTimer := true }

/-- addToBulkBuffer: push the pair and evaluate the flush trigger.  The
promise always fulfills; there is no capacity check of any kind in the
source. -/
def addToBulkBuffer (s : ESState α β ε) (action : α) (doc : β) : EnqueueResult × ESState α β ε :=
  (EnqueueResult.ok,
   tryFlushBulkBuffer { s with bulkBuffer := s.bulkBuffer ++ [⟨action, doc⟩] })

/-- The callback handed to client.bulk: emit the error if any, clear the
guard and re-evaluate the flush trigger against the remaining queue. -/
def bulkCallback (s : ESState α β ε) (err : Option ε) : ESState α β ε :=
  let s1 :=
    match err with
    | some e => { s with emitted := s.emitted ++ [e] }
    | none => s
  tryFlushBulkBuffer { s1 with isFlushingBulkBuffer := false, pending := s1.pending - 1 }

/-- Events that can hit one buffer instance under the single-threaded
cooperative scheduling of the host: an enqueue, the armed timer firing,
a direct flush invocation, and the client answering an outstanding bulk
request.  A response event runs the stored callback, which exists only
while a request is outstanding. -/
inductive ESEvent (α β ε : Type) where
  | enqueue (action : α) (doc : β)
  | timerFire
  | flushCall
  | bulkResponse (err : Option ε)

/-- One scheduler step. -/
def esStep (s : ESState α β ε) : ESEvent α β ε → ESState α β ε
  | ESEvent.enqueue a d => (addToBulkBuffer s a d).2
  | ESEvent.timerFire => flushBulkBuffer s
  | ESEvent.flushCall => flushBulkBuffer s
  | ESEvent.bulkResponse err => if s.pending = 0 then s else bulkCallback s err

/-- Run a sequence of events. -/
def esRun (s : ESState α β ε) (evts : List (ESEvent α β ε)) : ESState α β ε :=
  evts.foldl esStep s

/-- Run a sequence of enqueues. -/
def esEnqueues (s : ESState α β ε) (ops : List (BulkOp α β)) : ESState α β ε :=
  ops.foldl (fun t op => (addToBulkBuffer t op.action op.doc).2) s

/-- A freshly constructed provider with the given bulkSize and
bulkTimeout: empty buffer, no timer, guard clear. -/
def esInit (α β ε : Type) (bulkSize bulkTimeout : Nat) : ESState α β ε :=
  { bulkBuffer := []
    bulkTimer := false
    bulkSize := bulkSize
    bulkTimeout := bulkTimeout
    isFlushingBulkBuffer := false
    submissions := []
    emitted := []
    pending := 0 }

/-! ## JavaScript values and the validators (lib/elasticsearch.js) -/

/-- A JavaScript plain value, as far as the validators and renderDoc
inspect it: strings, numbers (modelled as integers; none of the embedded
code depends on fractional values), booleans, null, undefined, arrays and
plain objects (association lists in property insertion order). -/
inductive JSVal where
  | str : String → JSVal
  | num : Int → JSVal
  | boolean : Bool → JSVal
  | null : JSVal
  | undef : JSVal
  | arr : List JSVal → JSVal
  | obj : List (String × JSVal) → JSVal

/-- Lodash isString. -/
def jsIsString : JSVal → Bool
  | JSVal.str _ => true
  | _ => false

/-- Lodash isArray. -/
def jsIsArray : JSVal → Bool
  | JSVal.arr _ => true
  | _ => false

/-- Lodash isPlainObject. -/
def jsIsPlainObject : JSVal → Bool
  | JSVal.obj _ => true
  | _ => false

/-- The toLowerCase of the host, modelled characterwise. -/
def lowerStr (s : String) : String :=
  String.mk (s.data.map Char.toLower)

/-- The inner isValid helper of isValidIndex: a string equal to its own
lowercase form.  There is no length check in the source. -/
def isValidScalarIndex : JSVal → Bool
  | JSVal.str s => lowerStr s == s
  | _ => false

/-- ElasticsearchProvider.prototype.isValidIndex: when the argument is an
array and allowList is set, every element must satisfy the scalar rule;
otherwise the scalar rule applies to the argument itself. -/
def isValidIndex (index : JSVal) (allowList : Bool) : Bool :=
  match index, allowList with
  | JSVal.arr l, true => l.all isValidScalarIndex
  | v, _ => isValidScalarIndex v

/-- The index-name predicate exactly as the specification words it: a
NON-EMPTY string equal to its own lowercase form, extended elementwise to
arrays in allowList mode.  Kept separate from isValidIndex so the two can
be compared. -/
def specValidIndexName (index : JSVal) (allowList : Bool) : Bool :=
  match index, allowList with
  | JSVal.arr l, true => l.all (fun v =>
      match v with
      | JSVal.str s => !(s == "") && (lowerStr s == s)
      | _ => false)
  | JSVal.str s, _ => !(s == "") && (lowerStr s == s)
  | _, _ => false

/-- The amended index-name predicate: as specValidIndexName but without
the non-empty requirement, matching the source. -/
def amendedValidIndexName (index : JSVal) (allowList : Bool) : Bool :=
  match index, allowList with
  | JSVal.arr l, true => l.all (fun v =>
      match v with
      | JSVal.str s => lowerStr s == s
      | _ => false)
  | JSVal.str s, _ => lowerStr s == s
  | _, _ => false

/-- Errors of the provider boundary that matter to the claims. -/
inductive ESErr where
  | invalidArgument
  | indexNotFound
  | indexOperation
deriving DecidableEq, Repr

/-- The validation prefix of indexExists: reject with InvalidArgumentError
unless isValidIndex(index, true) holds, then ask the client. -/
def indexExistsCheck (index : JSVal) : Except ESErr Unit :=
  if isValidIndex index true then Except.ok () else Except.error ESErr.invalidArgument

/-- The validation prefix of deleteIndex: reject with InvalidArgumentError
unless isValidIndex(index, true) holds, then ask the client to delete. -/
def deleteIndexCheck (index : JSVal) : Except ESErr Unit :=
  if isValidIndex index true then Except.ok () else Except.error ESErr.invalidArgument

/-- ensureDeleteIndex with the client existence check abstracted as an
oracle on index names: validate with allowList, wrap a bare name in a
list, keep the indices the oracle reports as existing, and delete only
when some remain; the kept list is returned. -/
def ensureDeleteIndex (existsOracle : String → Bool) (indices : JSVal) :
    Except ESErr (List JSVal) :=
  if ¬ isValidIndex indices true then Except.error ESErr.invalidArgument
  else
    let lst := match indices with
      | JSVal.arr l => l
      | v => [v]
    let indicesToDelete := lst.filter (fun i =>
      match i with
      | JSVal.str s => existsOracle s
      | _ => false)
    Except.ok indicesToDelete

/-! ## Dotted paths -/

/-- Split a character list on the dot character, keeping empty segments,
as the split method of the host does for a one-character separator. -/
def splitDotsChars : List Char → List (List Char)
  | [] => [[]]
  | c :: rest =>
      if c = '.' then [] :: splitDotsChars rest
      else
        match splitDotsChars rest with
        | [] => [[c]]
        | seg :: segs => (c :: seg) :: segs

/-- Split a dotted path string into its segments. -/
def splitDots (s : String) : List String :=
  (splitDotsChars s.data).map (fun cs => String.mk cs)

/-! ## renderDoc (helper module) -/

/-- JavaScript truthiness, on the modelled value universe. -/
def truthy : JSVal → Bool
  | JSVal.str s => !(s == "")
  | JSVal.num n => n != 0
  | JSVal.boolean b => b
  | JSVal.null => false
  | JSVal.undef => false
  | JSVal.arr _ => true
  | JSVal.obj _ => true

/-- First-match lookup in an object property list. -/
def lookupJS : List (String × JSVal) → String → Option JSVal
  | [], _ => none
  | (k, v) :: rest, key => if k = key then some v else lookupJS rest key

/-- Lodash get along a segmented path: undefined when a segment is
missing or a non-object is traversed. -/
def getPath : JSVal → List String → JSVal
  | v, [] => v
  | JSVal.obj fs, k :: rest =>
      match lookupJS fs k with
      | some v => getPath v rest
      | none => JSVal.undef
  | _, _ :: _ => JSVal.undef

/-- Update the value of a key in place, or append the key. -/
def setKey : List (String × JSVal) → String → JSVal → List (String × JSVal)
  | [], k, v => [(k, v)]
  | (k1, v1) :: rest, k, v =>
      if k1 = k then (k, v) :: rest else (k1, v1) :: setKey rest k v

/-- Lodash set along a segmented path: descends through objects, replacing
a missing or non-object intermediate by a fresh object.  All segments are
treated as object keys (the embedded paths are field names, never array
indices).  A non-object root is returned unchanged, as lodash does. -/
def setPath : JSVal → List String → JSVal → JSVal
  | _, [], v => v
  | JSVal.obj fs, [k], v => JSVal.obj (setKey fs k v)
  | JSVal.obj fs, k :: k2 :: rest, v =>
      let child :=
        match lookupJS fs k with
        | some (JSVal.obj gs) => JSVal.obj gs
        | _ => JSVal.obj []
      JSVal.obj (setKey fs k (setPath child (k2 :: rest) v))
  | root, _ :: _, _ => root

/-- renderDoc of the helper module, applied to the plain snapshot of the
record (doc.toObject()): for each index path, read the value from the
snapshot and write it into the result only when it is truthy.  The
population-tree parameter of the source function is unused there and is
omitted here. -/
def renderDoc (plainDoc : JSVal) (indexPaths : List String) : JSVal :=
  indexPaths.foldl
    (fun result p =>
      let v := getPath plainDoc (splitDots p)
      if truthy v then setPath result (splitDots p) v else result)
    (JSVal.obj [])

/-! ## Lifecycle hook handlers (lib/plugin.js) -/

/-- A registered-model entry as stored by registerModel: the optional
transform function (the model handle and static mapping play no role in
the hook dispatch modelled here). -/
structure RegEntry (α : Type) where
  transform : Option (α → α)

/-- First-match lookup in the registered-model map. -/
def lookupReg : List (String × RegEntry α) → String → Option (RegEntry α)
  | [], _ => none
  | (k, v) :: rest, key => if k = key then some v else lookupReg rest key

/-- A call issued to the search backend by a hook handler. -/
inductive BackendCall (α : Type) where
  | indexDoc (id : String) (doc : α) (type1 : String) (index : String)
  | deleteDoc (id : String) (type1 : String) (index : String)

/-- Mongoolastic.prototype.indexDoc as fired by the save hook: look the
concrete model name up in the registered-model map; absent means no
backend call at all; present means one index call, on the transformed
document when a transform is registered. -/
def pluginIndexDoc (reg : List (String × RegEntry α)) (selfIndex : String)
    (docId : String) (docModelName : String) (docBody : α) : List (BackendCall α) :=
  match lookupReg reg docModelName with
  | none => []
  | some entry =>
      let body :=
        match entry.transform with
        | some f => f docBody
        | none => docBody
      [BackendCall.indexDoc docId body docModelName selfIndex]

/-- Mongoolastic.prototype.removeDoc as fired by the remove hook: absent
model name means no backend call; present means one delete call. -/
def pluginRemoveDoc (reg : List (String × RegEntry α)) (selfIndex : String)
    (docId : String) (docModelName : String) : List (BackendCall α) :=
  if (lookupReg reg docModelName).isSome then
    [BackendCall.deleteDoc docId docModelName selfIndex]
  else []

/-- The search backend document store: one document per
(index, type, id) triple. -/
def BackendStore (α : Type) := List ((String × String × String) × α)

/-- Apply one backend call to the store. -/
def applyCall (store : BackendStore α) : BackendCall α → BackendStore α
  | BackendCall.indexDoc id doc t idx =>
      ((idx, t, id), doc) :: store.filter (fun e => e.1 ≠ (idx, t, id))
  | BackendCall.deleteDoc id t idx =>
      store.filter (fun e => e.1 ≠ (idx, t, id))

/-- Apply a list of backend calls to the store. -/
def applyCalls (store : BackendStore α) (calls : List (BackendCall α)) : BackendStore α :=
  calls.foldl applyCall store

/-! ## Mapping trees and the dotted-path renderer (lib/plugin.js) -/

/-- A mapping document: a JSON tree of objects over opaque string
leaves.  Leaf mappings such as a type declaration are objects of string
leaves; lodash merge semantics on this universe are mergeJ below. -/
inductive JVal where
  | str : String → JVal
  | obj : List (String × JVal) → JVal

/-- First-match lookup in a JVal object field list. -/
def lookupKey : List (String × JVal) → String → Option JVal
  | [], _ => none
  | (k, v) :: rest, key => if k = key then some v else lookupKey rest key

mutual

/-- Lodash merge on the modelled universe: two objects merge keywise
(destination keys keep their positions, new source keys are appended in
source order); in every other combination the source value wins. -/
def mergeJ : JVal → JVal → JVal
  | JVal.str _, s => s
  | JVal.obj _, JVal.str b => JVal.str b
  | JVal.obj ds, JVal.obj ss =>
      JVal.obj (mergeDest ds ss ++ ss.filter (fun kv => (lookupKey ds kv.1).isNone))

/-- The destination part of a keywise merge: each destination entry keeps
its key, merged with the source value under the same key when present. -/
def mergeDest : List (String × JVal) → List (String × JVal) → List (String × JVal)
  | [], _ => []
  | (k, dv) :: rest, ss =>
      (k, match lookupKey ss k with
          | some sv => mergeJ dv sv
          | none => dv) :: mergeDest rest ss

end

/-- The wrapValue helper of renderMapping: a one-key object.  The keys it
is applied to are single segments, on which lodash set is plain key
assignment. -/
def wrapValue (k : String) (v : JVal) : JVal :=
  JVal.obj [(k, v)]

/-- The nesting loop of renderMapping for one dotted key: wrap the leaf
under the last segment, then wrap each earlier segment (right to left)
around a properties envelope. -/
def nestSegs : List String → JVal → JVal
  | [], v => v
  | [k], v => wrapValue k v
  | k :: k2 :: rest, v =>
      wrapValue k (JVal.obj [("properties", nestSegs (k2 :: rest) v)])

/-- The nested-mapping accumulation of renderMapping: starting from an
empty object, merge in the nesting of every dotted key with its leaf
mapping, in declaration order. -/
def renderNested (pms : List (String × JVal)) : JVal :=
  pms.foldl (fun acc kv => mergeJ acc (nestSegs (splitDots kv.1) kv.2)) (JVal.obj [])

/-- Mongoolastic.prototype.renderMapping: collect the declared leaf
mappings of the schema paths (given here as the association list of
dotted path to leaf in declaration order), nest them, and wrap the result
under the model name with one more properties envelope. -/
def renderMappingPlugin (modelName : String) (pms : List (String × JVal)) : JVal :=
  wrapValue modelName (JVal.obj [("properties", renderNested pms)])

/-- Descend a rendered mapping along the segments of a dotted path,
crossing exactly one properties envelope between consecutive segments:
the final segment is looked up directly, every earlier segment must lead
to an object whose properties key continues the descent.  A successful
descent of a path with n segments therefore certifies exactly n
properties envelopes above the returned value (counting the envelope the
caller wrapped around the whole field map). -/
def descendProps : JVal → List String → Option JVal
  | v, [] => some v
  | JVal.obj fs, [k] => lookupKey fs k
  | JVal.obj fs, k :: k2 :: rest =>
      match lookupKey fs k with
      | some (JVal.obj gs) =>
          match lookupKey gs "properties" with
          | some w => descendProps w (k2 :: rest)
          | none => none
      | _ => none
  | JVal.str _, _ :: _ => none

/-- The merge target is free along a path when merging a fresh nesting of
that path into it reaches the leaf position untouched: the descent is
blocked by a missing key, a string value, or a missing properties
envelope before the final segment, and the final segment is absent. -/
def chainFree : JVal → List String → Bool
  | _, [] => false
  | JVal.str _, _ :: _ => true
  | JVal.obj fs, [k] => (lookupKey fs k).isNone
  | JVal.obj fs, k :: k2 :: rest =>
      match lookupKey fs k with
      | none => true
      | some (JVal.str _) => true
      | some (JVal.obj gs) =>
          match lookupKey gs "properties" with
          | none => true
          | some pv => chainFree pv (k2 :: rest)

/-- Two segment lists are independent when neither is a leading part of
the other. -/
def segIndep : List String → List String → Bool
  | [], _ => false
  | _ :: _, [] => false
  | k1 :: rest1, k2 :: rest2 =>
      if k1 = k2 then segIndep rest1 rest2 else true

/-- Every pair of distinct entries in the list of dotted keys is
independent after splitting. -/
def pairwiseIndep : List (List String) → Bool
  | [] => true
  | p :: rest => rest.all (fun q => segIndep p q) && pairwiseIndep rest

mutual

/-- Every key at every level of the tree is free of dots. -/
def keysNoDot : JVal → Bool
  | JVal.str _ => true
  | JVal.obj fs => keysNoDotList fs

/-- keysNoDot over a field list. -/
def keysNoDotList : List (String × JVal) → Bool
  | [] => true
  | (k, v) :: rest => !(k.data.contains '.') && keysNoDot v && keysNoDotList rest

end

/-- Every declared leaf mapping of the schema paths is free of dotted
keys. -/
def leavesNoDot (pms : List (String × JVal)) : Bool :=
  pms.all (fun kv => keysNoDot kv.2)

/-- A concrete schema path list: one three-segment dotted path and one
plain path, each with a leaf mapping. -/
def c5pms : List (String × JVal) :=
  [("a.b.c", JVal.obj [("type", JVal.str "string")]),
   ("name", JVal.obj [("index", JVal.str "not_analyzed")])]

/-! ## Recursive schema renderers (helper module renderMapping and
renderPopulationTree) -/

mutual

/-- A mongoose schema tree: the path entries in declaration order. -/
inductive MSchema where
  | mk : List (String × FieldVal) → MSchema

/-- The classification the renderers derive from a path value, in the
order the source checks it: a declared elasticsearch.mapping leaf wins,
then an embedded sub-schema (an array whose first element is a schema),
then a reference (a ref property, directly or on the first element of an
array), else the path contributes nothing. -/
inductive FieldVal where
  | mapped : JVal → FieldVal
  | subDoc : MSchema → FieldVal
  | refField : String → FieldVal
  | plain : FieldVal

end

/-- The entries of a schema tree. -/
def MSchema.fields : MSchema → List (String × FieldVal)
  | MSchema.mk fs => fs

/-- First-match lookup in the population model registry, keyed by model
name; the registry hands back the schema of the registered model. -/
def lookupSchema : List (String × MSchema) → String → Option MSchema
  | [], _ => none
  | (k, v) :: rest, key => if k = key then some v else lookupSchema rest key

mutual

/-- renderMapping of the helper module, instrumented with fuel: the
source recursion descends into embedded sub-schemas and into the schema
of every referenced model found in the population registry, with no guard
against revisiting a model already being expanded.  Fuel zero answers
none; a run of the source terminates with some result exactly when some
fuel bound suffices, so a registry on which every fuel bound answers none
is one on which the source recursion never returns. -/
def renderMappingFuel : Nat → MSchema → List (String × MSchema) → Option JVal
  | 0, _, _ => none
  | fuel + 1, sch, reg =>
      (renderFieldsFuel fuel reg sch.fields (JVal.obj [])).map
        (fun r =>
          match r with
          | JVal.obj [] => JVal.obj []
          | r1 => JVal.obj [("properties", r1)])
termination_by fuel _ _ => (fuel, 0)

/-- The field fold of renderMapping: merge in declared leaf mappings,
recursively rendered embedded sub-schemas, and recursively rendered
schemas of registered reference targets. -/
def renderFieldsFuel (fuel : Nat) (reg : List (String × MSchema)) :
    List (String × FieldVal) → JVal → Option JVal
  | [], acc => some acc
  | (k, fv) :: rest, acc =>
      match fv with
      | FieldVal.mapped m =>
          renderFieldsFuel fuel reg rest (mergeJ acc (JVal.obj [(k, m)]))
      | FieldVal.subDoc sub =>
          match renderMappingFuel fuel sub reg with
          | some sm => renderFieldsFuel fuel reg rest (mergeJ acc (JVal.obj [(k, sm)]))
          | none => none
      | FieldVal.refField r =>
          match lookupSchema reg r with
          | some msch =>
              match renderMappingFuel fuel msch reg with
              | some pm => renderFieldsFuel fuel reg rest (mergeJ acc (JVal.obj [(k, pm)]))
              | none => none
          | none => renderFieldsFuel fuel reg rest acc
      | FieldVal.plain => renderFieldsFuel fuel reg rest acc
termination_by l _ => (fuel, l.length + 1)

end

/-- A population tree: each resolved reference path maps to the field
names of the referenced mapping, with an optional nested tree. -/
inductive PopTree where
  | mk : List (String × (List String × Option PopTree)) → PopTree

mutual

/-- renderPopulationTree of the helper module, instrumented with fuel:
embedded sub-schemas are traversed recursively (their result is computed
and dropped, as in the source where the merge line is commented out);
resolved references recurse into the referenced schema with no cycle
guard. -/
def renderPopTreeFuel : Nat → MSchema → List (String × MSchema) → Option PopTree
  | 0, _, _ => none
  | fuel + 1, sch, reg =>
      (renderPopFieldsFuel fuel reg sch.fields []).map PopTree.mk
termination_by fuel _ _ => (fuel, 0)

/-- The field fold of renderPopulationTree. -/
def renderPopFieldsFuel (fuel : Nat) (reg : List (String × MSchema)) :
    List (String × FieldVal) → List (String × (List String × Option PopTree)) →
    Option (List (String × (List String × Option PopTree)))
  | [], acc => some acc
  | (k, fv) :: rest, acc =>
      match fv with
      | FieldVal.subDoc sub =>
          match renderPopTreeFuel fuel sub reg with
          | some _ => renderPopFieldsFuel fuel reg rest acc
          | none => none
      | FieldVal.refField r =>
          match lookupSchema reg r with
          | some msch =>
              match renderPopTreeFuel fuel msch reg with
              | some pt => renderPopFieldsFuel fuel reg rest (acc ++ [(k, ([], some pt))])
              | none => none
          | none => renderPopFieldsFuel fuel reg rest acc
      | _ => renderPopFieldsFuel fuel reg rest acc
termination_by l _ => (fuel, l.length + 1)

end

/-- The schema of a model A holding a single reference to model B. -/
def refSchema (target : String) (fieldName : String) : MSchema :=
  MSchema.mk [(fieldName, FieldVal.refField target)]

/-- A registry with two mutually referencing models A and B. -/
def mutualReg : List (String × MSchema) :=
  [("A", refSchema "B" "b"), ("B", refSchema "A" "a")]

/-! ## Auxiliary definitions for the statements -/

/-- The guard discipline of the buffer: the number of outstanding bulk
requests is one exactly while the isFlushingBulkBuffer guard is set, and
zero otherwise. -/
def flushInv (s : ESState α β ε) : Prop :=
  s.pending = (if s.isFlushingBulkBuffer then 1 else 0)

/-- A reachable state exhibiting a flush call during an in-flight flush
with an armed timer: eleven enqueues on a provider with bulkSize ten (the
tenth triggers the in-flight flush, the eleventh arms the timer while the
flush is outstanding). -/
def elevenEnqueueState : ESState Nat Nat Nat :=
  esEnqueues (esInit Nat Nat Nat 10 50) ((List.range 11).map (fun i => ⟨i, i⟩))

/-- The buffer scenario of the BufferOverflowError test: a client created
with bulkBufferSize one and bulkTimeout 10000 (the constructor keeps the
default bulkSize of 100 and discards the bulkBufferSize option), after
one successful enqueue. -/
def overflowTestState : ESState Nat Nat Nat :=
  (addToBulkBuffer (esInit Nat Nat Nat 100 10000) 0 0).2

/-- Nine concrete operations for the bulkSize-ten scenario. -/
def c2ops : List (BulkOp Nat Nat) :=
  (List.range 9).map (fun i => ⟨i, i⟩)

/-! # Lemmas on the bulk buffer -/

theorem flushTakeAux_eq {α β : Type} (bs : Nat) (l : List (BulkOp α β)) :
    ∀ c, c < bs → flushTakeAux bs l c = (l.take (bs - c), l.drop (bs - c)) := by
  induction l with
  | nil => intro c hc; simp [flushTakeAux]
  | cons op rest ih =>
      intro c hc
      by_cases h : c + 1 < bs
      · have hbs : bs - c = (bs - (c + 1)) + 1 := by omega
        simp [flushTakeAux, h, ih (c + 1) h, hbs]
      · have hbs : bs - c = 1 := by omega
        simp [flushTakeAux, h, hbs]

theorem tryFlush_small {α β ε : Type} (s : ESState α β ε)
    (h0 : s.bulkBuffer.length ≠ 0) (h : s.bulkBuffer.length < s.bulkSize) :
    tryFlushBulkBuffer s = if s.bulkTimer then s else { s with bulkTimer := true } := by
  have h2 : ¬ s.bulkBuffer.length ≥ s.bulkSize := by omega
  simp [tryFlushBulkBuffer, h0, h2]

theorem addToBulkBuffer_small {α β ε : Type} (s : ESState α β ε) (a : α) (d : β)
    (h : s.bulkBuffer.length + 1 < s.bulkSize) :
    (addToBulkBuffer s a d).2 =
      { s with bulkBuffer := s.bulkBuffer ++ [⟨a, d⟩], bulkTimer := true } := by
  have h0 : ({ s with bulkBuffer := s.bulkBuffer ++ [⟨a, d⟩] } :
      ESState α β ε).bulkBuffer.length ≠ 0 := by simp
  have h1 : ({ s with bulkBuffer := s.bulkBuffer ++ [⟨a, d⟩] } :
      ESState α β ε).bulkBuffer.length < s.bulkSize := by simp; omega
  rw [show (addToBulkBuffer s a d).2 =
      tryFlushBulkBuffer { s with bulkBuffer := s.bulkBuffer ++ [⟨a, d⟩] } from rfl,
    tryFlush_small _ h0 h1]
  cases htm : s.bulkTimer <;> simp [htm]

theorem esEnqueues_small {α β ε : Type} :
    ∀ (ops : List (BulkOp α β)) (s : ESState α β ε),
      s.bulkBuffer.length + ops.length < s.bulkSize →
      esEnqueues s ops =
        { s with bulkBuffer := s.bulkBuffer ++ ops,
                 bulkTimer := s.bulkTimer || !ops.isEmpty } := by
  intro ops
  induction ops with
  | nil => intro s h; simp [esEnqueues]
  | cons op rest ih =>
      intro s h
      simp only [esEnqueues, List.foldl_cons]
      have h1 : s.bulkBuffer.length + 1 < s.bulkSize := by
        simp only [List.length_cons] at h; omega
      rw [addToBulkBuffer_small s op.action op.doc h1]
      have h2 := ih { s with bulkBuffer := s.bulkBuffer ++ [⟨op.action, op.doc⟩],
                             bulkTimer := true }
        (by simp only [List.length_cons] at h; simp; omega)
      simp only [esEnqueues] at h2
      rw [h2]
      simp [List.append_assoc]

theorem flushInv_flushBulkBuffer {α β ε : Type} (s : ESState α β ε)
    (h : flushInv s) : flushInv (flushBulkBuffer s) := by
  unfold flushInv at *
  by_cases hf : s.isFlushingBulkBuffer <;> simp [flushBulkBuffer, hf] at h ⊢ <;> omega

theorem flushInv_tryFlush {α β ε : Type} (s : ESState α β ε)
    (h : flushInv s) : flushInv (tryFlushBulkBuffer s) := by
  unfold tryFlushBulkBuffer
  split
  · exact h
  · split
    · exact flushInv_flushBulkBuffer s h
    · split
      · exact h
      · exact h

theorem flushInv_esStep {α β ε : Type} (s : ESState α β ε) (e : ESEvent α β ε)
    (h : flushInv s) : flushInv (esStep s e) := by
  cases e with
  | enqueue a d =>
      exact flushInv_tryFlush _ h
  | timerFire => exact flushInv_flushBulkBuffer s h
  | flushCall => exact flushInv_flushBulkBuffer s h
  | bulkResponse err =>
      simp only [esStep]
      split
      · exact h
      · rename_i hp
        unfold bulkCallback
        apply flushInv_tryFlush
        unfold flushInv at h ⊢
        have hfl : s.isFlushingBulkBuffer = true := by
          by_contra hc
          rw [Bool.not_eq_true] at hc
          rw [hc] at h
          simp at h
          exact hp h
        rw [hfl] at h
        simp at h
        cases err <;> simp [h]

theorem flushInv_esRun {α β ε : Type} :
    ∀ (evts : List (ESEvent α β ε)) (s : ESState α β ε),
      flushInv s → flushInv (esRun s evts) := by
  intro evts
  induction evts with
  | nil => intro s h; exact h
  | cons e rest ih =>
      intro s h
      exact ih (esStep s e) (flushInv_esStep s e h)

theorem emitted_flushBulkBuffer {α β ε : Type} (s : ESState α β ε) :
    (flushBulkBuffer s).emitted = s.emitted := by
  unfold flushBulkBuffer
  by_cases hf : s.isFlushingBulkBuffer <;> simp [hf]

theorem emitted_tryFlush {α β ε : Type} (s : ESState α β ε) :
    (tryFlushBulkBuffer s).emitted = s.emitted := by
  unfold tryFlushBulkBuffer
  split
  · rfl
  · split
    · exact emitted_flushBulkBuffer s
    · split <;> rfl

/-! # Claim theorems: bulk buffer -/

/-- C1: the claim says an enqueue against a full buffer (queue length at
the configured bulkBufferSize ceiling) fails with BufferOverflowError and
leaves the queue length unchanged.  The source contradicts this and its
own error declarations and tests: the constructor discards the
bulkBufferSize option and addToBulkBuffer appends unconditionally and
always fulfills.  In the scenario of the overflow test (bulkBufferSize
one, one operation already queued) the second enqueue succeeds and the
queue grows to two. -/
theorem C1_overflow_check_missing :
    (∀ (α β ε : Type) (s : ESState α β ε) (a : α) (d : β),
        (addToBulkBuffer s a d).1 = EnqueueResult.ok) ∧
    overflowTestState.bulkBuffer.length = 1 ∧
    (addToBulkBuffer overflowTestState 1 1).1 = EnqueueResult.ok ∧
    (addToBulkBuffer overflowTestState 1 1).2.bulkBuffer.length = 2 := by
  refine ⟨fun α β ε s a d => rfl, by decide, rfl, by decide⟩


theorem tryFlush_big {α β ε : Type} (s : ESState α β ε)
    (h0 : s.bulkBuffer.length ≠ 0) (h : s.bulkBuffer.length ≥ s.bulkSize) :
    tryFlushBulkBuffer s = flushBulkBuffer s := by
  simp [tryFlushBulkBuffer, h0, h]

theorem flushBulkBuffer_not_flushing {α β ε : Type} (s : ESState α β ε)
    (hf : s.isFlushingBulkBuffer = false) (hbs : 1 ≤ s.bulkSize) :
    flushBulkBuffer s =
      { s with bulkTimer := false, isFlushingBulkBuffer := true,
               bulkBuffer := s.bulkBuffer.drop s.bulkSize,
               submissions := s.submissions ++ [s.bulkBuffer.take s.bulkSize],
               pending := s.pending + 1 } := by
  obtain ⟨buf, tmr, bsz, bto, fl, sub, em, pd⟩ := s
  have hfl : fl = false := hf
  have hbs1 : 1 ≤ bsz := hbs
  subst hfl
  simp [flushBulkBuffer, flushTakeAux_eq bsz buf 0 (by omega)]

theorem esEnqueues_append {α β ε : Type} (s : ESState α β ε)
    (l1 l2 : List (BulkOp α β)) :
    esEnqueues s (l1 ++ l2) = esEnqueues (esEnqueues s l1) l2 := by
  simp [esEnqueues, List.foldl_append]

/-- C2: after every enqueue the flush trigger is evaluated on the
appended queue: at or above bulkSize a flush runs immediately; below it a
timer is armed when none is, and nothing else changes when one is.  With
bulkSize ten, nine enqueues from a fresh provider produce no bulk
submission, and a tenth produces exactly one submission holding exactly
those ten action/doc pairs in FIFO order. -/
theorem C2_flush_trigger (α β ε : Type) (s : ESState α β ε) (a : α) (d : β)
    (t : Nat) (ops : List (BulkOp α β)) (extra : BulkOp α β)
    (hlen : ops.length = 9) :
    (addToBulkBuffer s a d).2 =
        tryFlushBulkBuffer { s with bulkBuffer := s.bulkBuffer ++ [⟨a, d⟩] } ∧
    tryFlushBulkBuffer { s with bulkBuffer := s.bulkBuffer ++ [⟨a, d⟩] } =
      (if s.bulkBuffer.length + 1 ≥ s.bulkSize then
         flushBulkBuffer { s with bulkBuffer := s.bulkBuffer ++ [⟨a, d⟩] }
       else if s.bulkTimer then { s with bulkBuffer := s.bulkBuffer ++ [⟨a, d⟩] }
       else { s with bulkBuffer := s.bulkBuffer ++ [⟨a, d⟩], bulkTimer := true }) ∧
    (esEnqueues (esInit α β ε 10 t) ops).submissions = [] ∧
    (esEnqueues (esInit α β ε 10 t) (ops ++ [extra])).submissions = [ops ++ [extra]] := by
  have hsmall := esEnqueues_small ops (esInit α β ε 10 t) (by simp [esInit, hlen])
  have hopsne : ops.isEmpty = false := by
    cases ops with
    | nil => simp at hlen
    | cons o r => rfl
  refine ⟨rfl, ?_, ?_, ?_⟩
  · by_cases hge : s.bulkBuffer.length + 1 ≥ s.bulkSize
    · rw [if_pos hge]
      exact tryFlush_big _ (by simp) (by simp; omega)
    · rw [if_neg hge]
      rw [tryFlush_small _ (by simp) (by simp; omega)]
  · rw [hsmall]
    simp [esInit]
  · rw [esEnqueues_append, hsmall]
    simp only [hopsne, Bool.not_false, Bool.or_true, List.nil_append]
    show (tryFlushBulkBuffer _).submissions = _
    rw [tryFlush_big _ (by simp) (by simp [esInit, hlen])]
    rw [flushBulkBuffer_not_flushing _ (by rfl) (by simp [esInit])]
    have h10 : (ops ++ [extra]).length = 10 := by simp [hlen]
    show ((esInit α β ε 10 t).submissions ++ [(ops ++ [extra]).take 10]) = _
    rw [show (10 : Nat) = (ops ++ [extra]).length from h10.symm, List.take_length]
    rfl

/-- Witness for C2 at a concrete provider with bulkSize ten: nine
concrete operations then a tenth. -/
theorem C2_flush_trigger_witness :
    c2ops.length = 9 ∧
    ((addToBulkBuffer (esInit Nat Nat Nat 10 50) 0 0).2 =
        tryFlushBulkBuffer { esInit Nat Nat Nat 10 50 with
          bulkBuffer := (esInit Nat Nat Nat 10 50).bulkBuffer ++ [⟨0, 0⟩] } ∧
     tryFlushBulkBuffer { esInit Nat Nat Nat 10 50 with
          bulkBuffer := (esInit Nat Nat Nat 10 50).bulkBuffer ++ [⟨0, 0⟩] } =
       (if (esInit Nat Nat Nat 10 50).bulkBuffer.length + 1 ≥
            (esInit Nat Nat Nat 10 50).bulkSize then
          flushBulkBuffer { esInit Nat Nat Nat 10 50 with
            bulkBuffer := (esInit Nat Nat Nat 10 50).bulkBuffer ++ [⟨0, 0⟩] }
        else if (esInit Nat Nat Nat 10 50).bulkTimer then
          { esInit Nat Nat Nat 10 50 with
            bulkBuffer := (esInit Nat Nat Nat 10 50).bulkBuffer ++ [⟨0, 0⟩] }
        else
          { esInit Nat Nat Nat 10 50 with
            bulkBuffer := (esInit Nat Nat Nat 10 50).bulkBuffer ++ [⟨0, 0⟩],
            bulkTimer := true }) ∧
     (esEnqueues (esInit Nat Nat Nat 10 50) c2ops).submissions = [] ∧
     (esEnqueues (esInit Nat Nat Nat 10 50) (c2ops ++ [⟨9, 9⟩])).submissions =
       [c2ops ++ [⟨9, 9⟩]]) :=
  ⟨by decide, C2_flush_trigger Nat Nat Nat (esInit Nat Nat Nat 10 50) 0 0 50 c2ops ⟨9, 9⟩ (by decide)⟩

/-- Counterexample to C3 as stated: in the reachable state reached by
eleven enqueues at bulkSize ten, a flush is in progress and a timer is
armed; calling flushBulkBuffer there performs no submission but is not a
no-op, it cancels the armed timer. -/
theorem C3_noop_counterexample :
    elevenEnqueueState.isFlushingBulkBuffer = true ∧
    elevenEnqueueState.bulkTimer = true ∧
    (flushBulkBuffer elevenEnqueueState).submissions = elevenEnqueueState.submissions ∧
    (flushBulkBuffer elevenEnqueueState).bulkBuffer = elevenEnqueueState.bulkBuffer ∧
    (flushBulkBuffer elevenEnqueueState).bulkTimer = false ∧
    flushBulkBuffer elevenEnqueueState ≠ elevenEnqueueState := by
  refine ⟨by decide, by decide, by decide, by decide, by decide, by decide⟩

/-- C3 amended: flushBulkBuffer first cancels any armed timer in every
case; with the guard set it then changes nothing else and submits
nothing, otherwise it sets the guard, dequeues up to bulkSize operations
in FIFO order and submits them as one body.  The client callback clears
the guard and re-evaluates the flush trigger on the remaining queue
whether or not an error is reported.  One outstanding submission at most
ever exists on any event sequence from a fresh provider. -/
theorem C3_flush_serialization (α β ε : Type) (s : ESState α β ε) (err : Option ε)
    (evts : List (ESEvent α β ε)) (bs bt : Nat)
    (h : 1 ≤ s.bulkSize) :
    flushBulkBuffer s =
      (if s.isFlushingBulkBuffer then { s with bulkTimer := false }
       else
         { s with
             bulkTimer := false
             isFlushingBulkBuffer := true
             bulkBuffer := s.bulkBuffer.drop s.bulkSize
             submissions := s.submissions ++ [s.bulkBuffer.take s.bulkSize]
             pending := s.pending + 1 }) ∧
    bulkCallback s err =
      tryFlushBulkBuffer
        { s with
            emitted := s.emitted ++ err.toList
            isFlushingBulkBuffer := false
            pending := s.pending - 1 } ∧
    (esRun (esInit α β ε bs bt) evts).pending ≤ 1 := by
  refine ⟨?_, ?_, ?_⟩
  · by_cases hf : s.isFlushingBulkBuffer
    · rw [if_pos hf]
      unfold flushBulkBuffer
      simp [hf]
    · rw [if_neg hf]
      exact flushBulkBuffer_not_flushing s (by simp [hf]) h
  · cases err with
    | none => simp [bulkCallback, Option.toList]
    | some e => simp [bulkCallback, Option.toList]
  · have hinv : flushInv (esRun (esInit α β ε bs bt) evts) :=
      flushInv_esRun evts _ (by unfold flushInv esInit; simp)
    unfold flushInv at hinv
    rw [hinv]
    split <;> omega

/-- Witness for C3 at the reachable eleven-enqueue state, a concrete
error, and a concrete event sequence. -/
theorem C3_flush_serialization_witness :
    1 ≤ elevenEnqueueState.bulkSize ∧
    (flushBulkBuffer elevenEnqueueState =
      (if elevenEnqueueState.isFlushingBulkBuffer then
         { elevenEnqueueState with bulkTimer := false }
       else
         { elevenEnqueueState with
             bulkTimer := false
             isFlushingBulkBuffer := true
             bulkBuffer := elevenEnqueueState.bulkBuffer.drop elevenEnqueueState.bulkSize
             submissions := elevenEnqueueState.submissions ++
               [elevenEnqueueState.bulkBuffer.take elevenEnqueueState.bulkSize]
             pending := elevenEnqueueState.pending + 1 }) ∧
     bulkCallback elevenEnqueueState (some 7) =
       tryFlushBulkBuffer
         { elevenEnqueueState with
             emitted := elevenEnqueueState.emitted ++ (some 7).toList
             isFlushingBulkBuffer := false
             pending := elevenEnqueueState.pending - 1 } ∧
     (esRun (esInit Nat Nat Nat 3 4)
        [ESEvent.enqueue 1 1, ESEvent.flushCall, ESEvent.bulkResponse (some 2)]).pending ≤ 1) :=
  ⟨by decide,
   C3_flush_serialization Nat Nat Nat elevenEnqueueState (some 7)
     [ESEvent.enqueue 1 1, ESEvent.flushCall, ESEvent.bulkResponse (some 2)] 3 4 (by decide)⟩

/-- C4: a bulk submission error is handed to the emit observer interface
and reaches no enqueue caller: every addToBulkBuffer invocation has
already answered ok at enqueue time, on any state whatsoever, and the
client callback run with an error appends exactly that error to the
emitted events. -/
theorem C4_flush_error_emitted (α β ε : Type) (s s2 : ESState α β ε)
    (a : α) (d : β) (e : ε) :
    (addToBulkBuffer s a d).1 = EnqueueResult.ok ∧
    (bulkCallback s2 (some e)).emitted = s2.emitted ++ [e] ∧
    (bulkCallback s2 none).emitted = s2.emitted := by
  refine ⟨rfl, ?_, ?_⟩
  · unfold bulkCallback
    rw [emitted_tryFlush]
  · unfold bulkCallback
    rw [emitted_tryFlush]

/-! # Claim theorems: validators -/

/-- Counterexample to C7 as stated: the source accepts the empty string
as an index name (there is no length check), while the claimed predicate
requires a non-empty string. -/
theorem C7_empty_string_counterexample :
    isValidIndex (JSVal.str "") false = true ∧
    specValidIndexName (JSVal.str "") false = false := by
  exact ⟨rfl, rfl⟩

/-- C7 amended: isValidIndex x allowList is true exactly when x is a
string equal to its own lowercase form, the empty string included; with
allowList set and x an array, exactly when every element is such a
string.  All five concrete examples of the claim hold as stated. -/
theorem C7_index_name_validation (x : JSVal) (aL : Bool) :
    isValidIndex x aL = amendedValidIndexName x aL ∧
    isValidIndex (JSVal.str "ABC") false = false ∧
    isValidIndex (JSVal.str "abc-def") false = true ∧
    isValidIndex (JSVal.num 123) false = false ∧
    isValidIndex (JSVal.arr [JSVal.str "a", JSVal.str "B"]) true = false ∧
    isValidIndex (JSVal.arr [JSVal.str "a", JSVal.str "b"]) true = true := by
  refine ⟨?_, by decide, by decide, rfl, by decide, by decide⟩
  cases x with
  | arr l =>
      cases aL with
      | false => rfl
      | true =>
          show l.all isValidScalarIndex = l.all _
          apply congrArg (List.all l)
          funext v
          cases v <;> rfl
  | str st => cases aL <;> rfl
  | num n => cases aL <;> rfl
  | boolean b => cases aL <;> rfl
  | null => cases aL <;> rfl
  | undef => cases aL <;> rfl
  | obj fs => cases aL <;> rfl

/-- C10: list-mode validation accepts the empty list vacuously, so the
operations validating with allowList (indexExists, deleteIndex,
ensureDeleteIndex) never answer InvalidArgumentError for an empty list
of index names; ensureDeleteIndex returns the empty list of deleted
indices for any backend. -/
theorem C10_empty_list_accepted (existsOracle : String → Bool) :
    isValidIndex (JSVal.arr []) true = true ∧
    indexExistsCheck (JSVal.arr []) = Except.ok () ∧
    deleteIndexCheck (JSVal.arr []) = Except.ok () ∧
    ensureDeleteIndex existsOracle (JSVal.arr []) = Except.ok [] := by
  exact ⟨rfl, rfl, rfl, rfl⟩

/-! # Claim theorems: lifecycle hooks -/

/-- C9: when the concrete model name of the instance firing a save or
remove hook is absent from the registered-model map, the hook handlers
issue no backend call at all, so the backend store is left exactly as it
was; an instance of a registered model is the only source of backend
calls. -/
theorem C9_unregistered_model_isolated (α : Type) (reg : List (String × RegEntry α))
    (selfIndex docId docModelName : String) (docBody : α) (store : BackendStore α)
    (h : lookupReg reg docModelName = none) :
    pluginIndexDoc reg selfIndex docId docModelName docBody = [] ∧
    pluginRemoveDoc reg selfIndex docId docModelName = [] ∧
    applyCalls store (pluginIndexDoc reg selfIndex docId docModelName docBody) = store ∧
    applyCalls store (pluginRemoveDoc reg selfIndex docId docModelName) = store := by
  have h1 : pluginIndexDoc reg selfIndex docId docModelName docBody = [] := by
    unfold pluginIndexDoc
    rw [h]
  have h2 : pluginRemoveDoc reg selfIndex docId docModelName = [] := by
    unfold pluginRemoveDoc
    rw [h]
    rfl
  exact ⟨h1, h2, by rw [h1]; rfl, by rw [h2]; rfl⟩

/-- Witness for C9: a registry holding only the model Cat, and a Dog
instance firing the hooks. -/
theorem C9_unregistered_model_isolated_witness :
    lookupReg [("Cat", (⟨none⟩ : RegEntry Nat))] "Dog" = none ∧
    (pluginIndexDoc [("Cat", (⟨none⟩ : RegEntry Nat))] "idx" "id1" "Dog" 5 = [] ∧
     pluginRemoveDoc (α := Nat) [("Cat", ⟨none⟩)] "idx" "id1" "Dog" = [] ∧
     applyCalls [] (pluginIndexDoc [("Cat", (⟨none⟩ : RegEntry Nat))] "idx" "id1" "Dog" 5) = [] ∧
     applyCalls [] (pluginRemoveDoc (α := Nat) [("Cat", ⟨none⟩)] "idx" "id1" "Dog") = []) :=
  ⟨rfl, C9_unregistered_model_isolated Nat [("Cat", ⟨none⟩)] "idx" "id1" "Dog" 5 [] rfl⟩

/-! # Claim theorems: recursive renderers on mutually referencing models -/

/-- C6: with two mutually referencing schemas both present in the
population model registry, no fuel bound suffices for either the mapping
renderer or the population tree renderer: the unguarded source recursion
(model A resolves its reference to B, which resolves its reference back
to A, and so on) never returns, contradicting the termination the claim
states and the specification mandates. -/
theorem C6_mutual_reference_divergence :
    ∀ n : Nat,
      renderMappingFuel n (refSchema "B" "b") mutualReg = none ∧
      renderMappingFuel n (refSchema "A" "a") mutualReg = none ∧
      renderPopTreeFuel n (refSchema "B" "b") mutualReg = none ∧
      renderPopTreeFuel n (refSchema "A" "a") mutualReg = none := by
  have lA : lookupSchema mutualReg "A" = some (refSchema "B" "b") := rfl
  have lB : lookupSchema mutualReg "B" = some (refSchema "A" "a") := rfl
  intro n
  induction n with
  | zero =>
      refine ⟨?_, ?_, ?_, ?_⟩ <;> simp [renderMappingFuel, renderPopTreeFuel]
  | succ n ih =>
      obtain ⟨h1, h2, h3, h4⟩ := ih
      simp only [refSchema] at h1 h2 h3 h4
      refine ⟨?_, ?_, ?_, ?_⟩
      · simp [renderMappingFuel, renderFieldsFuel, refSchema, MSchema.fields, lB, h2]
      · simp [renderMappingFuel, renderFieldsFuel, refSchema, MSchema.fields, lA, h1]
      · simp [renderPopTreeFuel, renderPopFieldsFuel, refSchema, MSchema.fields, lB, h4]
      · simp [renderPopTreeFuel, renderPopFieldsFuel, refSchema, MSchema.fields, lA, h3]

/-! # Lemmas on paths, getPath and setPath -/

theorem splitDotsChars_ne_nil : ∀ cs : List Char, splitDotsChars cs ≠ [] := by
  intro cs
  induction cs with
  | nil => simp [splitDotsChars]
  | cons c rest ih =>
      simp only [splitDotsChars]
      by_cases h : c = '.'
      · simp [h]
      · simp only [h, if_false]
        cases hs : splitDotsChars rest with
        | nil => exact absurd hs ih
        | cons s1 ss => simp

theorem splitDots_ne_nil (s : String) : splitDots s ≠ [] := by
  unfold splitDots
  intro h
  exact splitDotsChars_ne_nil s.data (List.map_eq_nil_iff.mp h)

theorem lookupJS_setKey_self : ∀ (fs : List (String × JSVal)) (k : String) (v : JSVal),
    lookupJS (setKey fs k v) k = some v := by
  intro fs k v
  induction fs with
  | nil => simp [setKey, lookupJS]
  | cons kv rest ih =>
      obtain ⟨k1, v1⟩ := kv
      by_cases h : k1 = k
      · simp [setKey, h, lookupJS]
      · simp [setKey, h, lookupJS, ih]

theorem lookupJS_setKey_other : ∀ (fs : List (String × JSVal)) (k k1 : String) (v : JSVal),
    k1 ≠ k → lookupJS (setKey fs k v) k1 = lookupJS fs k1 := by
  intro fs k k1 v hne
  induction fs with
  | nil => simp [setKey, lookupJS, Ne.symm hne]
  | cons kv rest ih =>
      obtain ⟨k2, v2⟩ := kv
      by_cases h : k2 = k
      · subst h
        simp [setKey, lookupJS, hne, Ne.symm hne]
      · simp only [setKey, h, if_false, lookupJS]
        by_cases h2 : k2 = k1
        · simp [h2]
        · simp [h2, ih]

theorem setPath_obj : ∀ (segs : List String) (fs : List (String × JSVal)) (v : JSVal),
    segs ≠ [] → ∃ gs, setPath (JSVal.obj fs) segs v = JSVal.obj gs := by
  intro segs fs v h
  cases segs with
  | nil => exact absurd rfl h
  | cons k rest =>
      cases rest with
      | nil => exact ⟨setKey fs k v, rfl⟩
      | cons k2 r2 => exact ⟨_, rfl⟩

theorem getPath_empty_obj : ∀ (segs : List String), segs ≠ [] →
    getPath (JSVal.obj []) segs = JSVal.undef := by
  intro segs h
  cases segs with
  | nil => exact absurd rfl h
  | cons k rest => simp [getPath, lookupJS]

theorem getPath_setPath_self :
    ∀ (segs : List String) (fs : List (String × JSVal)) (v : JSVal),
      segs ≠ [] → getPath (setPath (JSVal.obj fs) segs v) segs = v := by
  intro segs
  induction segs with
  | nil => intro fs v h; exact absurd rfl h
  | cons k rest ih =>
      intro fs v _
      cases rest with
      | nil =>
          simp [setPath, getPath, lookupJS_setKey_self]
      | cons k2 r2 =>
          simp only [setPath, getPath]
          rw [lookupJS_setKey_self]
          cases hc : lookupJS fs k with
          | none => simpa using ih [] v (by simp)
          | some w =>
              cases w <;> simp only [] <;>
                first
                  | simpa using ih [] v (by simp)
                  | (rename_i gs; simpa using ih gs v (by simp))

theorem segIndep_symm : ∀ (p q : List String), segIndep p q = segIndep q p := by
  intro p
  induction p with
  | nil =>
      intro q
      cases q <;> simp [segIndep]
  | cons kp prest ih =>
      intro q
      cases q with
      | nil => simp [segIndep]
      | cons kq qrest =>
          simp only [segIndep]
          by_cases h : kp = kq
          · simp [h, ih qrest]
          · simp [h, Ne.symm h]

theorem getPath_setPath_fresh :
    ∀ (q p : List String) (v : JSVal),
      segIndep p q = true → getPath (setPath (JSVal.obj []) q v) p = JSVal.undef := by
  intro q
  induction q with
  | nil =>
      intro p v h
      cases p <;> simp [segIndep] at h
  | cons kq qrest ih =>
      intro p v h
      cases p with
      | nil => simp [segIndep] at h
      | cons kp prest =>
          simp only [segIndep] at h
          by_cases hk : kp = kq
          · rw [if_pos (hk ▸ rfl)] at h
            subst hk
            cases qrest with
            | nil =>
                cases prest with
                | nil => simp [segIndep] at h
                | cons p2 pr2 => simp [segIndep] at h
            | cons q2 qr2 =>
                cases prest with
                | nil => simp [segIndep] at h
                | cons p2 pr2 =>
                    simp only [setPath, getPath, lookupJS, if_pos rfl]
                    exact ih (p2 :: pr2) v h
          · cases qrest with
            | nil =>
                cases prest <;>
                  simp [setPath, getPath, setKey, lookupJS, Ne.symm hk]
            | cons q2 qr2 =>
                cases prest <;>
                  simp [setPath, getPath, setKey, lookupJS, Ne.symm hk]

theorem getPath_setPath_indep :
    ∀ (q p : List String) (fs : List (String × JSVal)) (v : JSVal),
      segIndep p q = true →
      getPath (setPath (JSVal.obj fs) q v) p = getPath (JSVal.obj fs) p := by
  intro q
  induction q with
  | nil => intro p fs v h; cases p <;> simp [segIndep] at h
  | cons kq qrest ih =>
      intro p fs v h
      cases p with
      | nil => simp [segIndep] at h
      | cons kp prest =>
          simp only [segIndep] at h
          by_cases hk : kp = kq
          · rw [if_pos (hk ▸ rfl)] at h
            subst hk
            cases qrest with
            | nil => cases prest <;> simp [segIndep] at h
            | cons q2 qr2 =>
                cases prest with
                | nil => simp [segIndep] at h
                | cons p2 pr2 =>
                    simp only [setPath, getPath]
                    rw [lookupJS_setKey_self]
                    cases hc : lookupJS fs kp with
                    | none =>
                        simp only [hc]
                        exact getPath_setPath_fresh (q2 :: qr2) (p2 :: pr2) v h
                    | some w =>
                        simp only [hc]
                        cases w with
                        | obj gs => exact ih (p2 :: pr2) gs v h
                        | str s1 =>
                            simp only [getPath]
                            exact getPath_setPath_fresh (q2 :: qr2) (p2 :: pr2) v h
                        | num n1 =>
                            simp only [getPath]
                            exact getPath_setPath_fresh (q2 :: qr2) (p2 :: pr2) v h
                        | boolean b1 =>
                            simp only [getPath]
                            exact getPath_setPath_fresh (q2 :: qr2) (p2 :: pr2) v h
                        | null =>
                            simp only [getPath]
                            exact getPath_setPath_fresh (q2 :: qr2) (p2 :: pr2) v h
                        | undef =>
                            simp only [getPath]
                            exact getPath_setPath_fresh (q2 :: qr2) (p2 :: pr2) v h
                        | arr l1 =>
                            simp only [getPath]
                            exact getPath_setPath_fresh (q2 :: qr2) (p2 :: pr2) v h
          · cases qrest with
            | nil =>
                cases prest <;>
                  simp [setPath, getPath, lookupJS_setKey_other fs kq kp v (by exact hk)]
            | cons q2 qr2 =>
                cases prest <;>
                  simp [setPath, getPath,
                    lookupJS_setKey_other fs kq kp _ (by exact hk)]

theorem renderDoc_fold_preserves (doc : JSVal) :
    ∀ (paths : List String) (fs : List (String × JSVal)) (p : List String),
      (∀ q ∈ paths, segIndep p (splitDots q) = true) →
      getPath (paths.foldl (fun result q =>
          if truthy (getPath doc (splitDots q)) then
            setPath result (splitDots q) (getPath doc (splitDots q))
          else result) (JSVal.obj fs)) p =
        getPath (JSVal.obj fs) p := by
  intro paths
  induction paths with
  | nil => intro fs p h; rfl
  | cons q rest ih =>
      intro fs p h
      simp only [List.foldl_cons]
      by_cases ht : truthy (getPath doc (splitDots q))
      · rw [if_pos ht]
        obtain ⟨gs, hgs⟩ := setPath_obj (splitDots q) fs (getPath doc (splitDots q))
          (splitDots_ne_nil q)
        rw [hgs, ih gs p (fun r hr => h r (List.mem_cons_of_mem q hr)), ← hgs,
          getPath_setPath_indep (splitDots q) p fs _ (h q (List.mem_cons_self q rest))]
      · rw [if_neg ht]
        exact ih fs p (fun r hr => h r (List.mem_cons_of_mem q hr))

theorem renderDoc_go (doc : JSVal) :
    ∀ (paths : List String) (fs : List (String × JSVal)),
      pairwiseIndep (paths.map splitDots) = true →
      (∀ q ∈ paths, getPath (JSVal.obj fs) (splitDots q) = JSVal.undef) →
      ∀ p ∈ paths,
        getPath (paths.foldl (fun result q =>
            if truthy (getPath doc (splitDots q)) then
              setPath result (splitDots q) (getPath doc (splitDots q))
            else result) (JSVal.obj fs))
          (splitDots p) =
          (if truthy (getPath doc (splitDots p)) then getPath doc (splitDots p)
           else JSVal.undef) := by
  intro paths
  induction paths with
  | nil => intro fs _ _ p hp; exact absurd hp (List.not_mem_nil p)
  | cons q rest ih =>
      intro fs hpw hfree p hp
      have hall : ∀ r ∈ rest, segIndep (splitDots q) (splitDots r) = true := by
        intro r hr
        have h2 := hpw
        simp only [List.map_cons, pairwiseIndep, Bool.and_eq_true, List.all_eq_true] at h2
        exact h2.1 (splitDots r) (List.mem_map_of_mem splitDots hr)
      have hpw2 : pairwiseIndep (rest.map splitDots) = true := by
        simp only [List.map_cons, pairwiseIndep, Bool.and_eq_true] at hpw
        exact hpw.2
      simp only [List.foldl_cons]
      by_cases ht : truthy (getPath doc (splitDots q))
      · rw [if_pos ht]
        obtain ⟨gs, hgs⟩ := setPath_obj (splitDots q) fs (getPath doc (splitDots q))
          (splitDots_ne_nil q)
        rw [hgs]
        rcases List.mem_cons.mp hp with hpq | hpr
        · subst hpq
          rw [renderDoc_fold_preserves doc rest gs (splitDots p) hall, ← hgs,
            getPath_setPath_self (splitDots p) fs _ (splitDots_ne_nil p), if_pos ht]
        · apply ih gs hpw2 _ p hpr
          intro r hr
          rw [← hgs, getPath_setPath_indep (splitDots q) (splitDots r) fs _ ?_]
          · exact hfree r (List.mem_cons_of_mem q hr)
          · rw [segIndep_symm]
            exact hall r hr
      · rw [if_neg ht]
        rcases List.mem_cons.mp hp with hpq | hpr
        · subst hpq
          rw [renderDoc_fold_preserves doc rest fs (splitDots p) hall,
            hfree p (List.mem_cons_self p rest), if_neg ht]
        · exact ih fs hpw2 (fun r hr => hfree r (List.mem_cons_of_mem q hr)) p hpr

/-! # Claim theorems: renderDoc -/

/-- Counterexample to C8 as stated: a value of zero is present in the
snapshot at path a, yet renderDoc skips it (the source guards the write
with JavaScript truthiness, not with presence), so the result is the
empty object and the path reads back undefined. -/
theorem C8_falsy_value_counterexample :
    getPath (JSVal.obj [("a", JSVal.num 0)]) (splitDots "a") = JSVal.num 0 ∧
    JSVal.num 0 ≠ JSVal.undef ∧
    renderDoc (JSVal.obj [("a", JSVal.num 0)]) ["a"] = JSVal.obj [] ∧
    getPath (renderDoc (JSVal.obj [("a", JSVal.num 0)]) ["a"]) (splitDots "a") =
      JSVal.undef := by
  refine ⟨rfl, fun h => JSVal.noConfusion h, rfl, rfl⟩

/-- C8 amended: for pairwise independent index paths (no path a leading
part of another, as with the leaf paths of a schema), renderDoc writes
the snapshot value at every listed path whose value is truthy, and a
path whose value is falsy (undefined, null, false, zero or the empty
string) or absent is left out of the result entirely, reading back as
undefined; in particular no undefined value is ever written. -/
theorem C8_renderDoc_truthy_copy (doc : JSVal) (paths : List String) (p : String)
    (hindep : pairwiseIndep (paths.map splitDots) = true)
    (hp : p ∈ paths) :
    getPath (renderDoc doc paths) (splitDots p) =
      (if truthy (getPath doc (splitDots p)) then getPath doc (splitDots p)
       else JSVal.undef) := by
  have h := renderDoc_go doc paths [] hindep
    (fun q _ => getPath_empty_obj (splitDots q) (splitDots_ne_nil q)) p hp
  exact h

/-- Witness for C8 on a concrete snapshot with one nested truthy path
and one falsy path. -/
theorem C8_renderDoc_truthy_copy_witness :
    pairwiseIndep ((["a.b", "c"].map splitDots)) = true ∧
    "a.b" ∈ ["a.b", "c"] ∧
    getPath (renderDoc (JSVal.obj [("a", JSVal.obj [("b", JSVal.str "x")]), ("c", JSVal.num 0)])
        ["a.b", "c"]) (splitDots "a.b") =
      (if truthy (getPath (JSVal.obj [("a", JSVal.obj [("b", JSVal.str "x")]), ("c", JSVal.num 0)])
          (splitDots "a.b")) then
        getPath (JSVal.obj [("a", JSVal.obj [("b", JSVal.str "x")]), ("c", JSVal.num 0)])
          (splitDots "a.b")
       else JSVal.undef) :=
  ⟨by decide, by decide,
   C8_renderDoc_truthy_copy
     (JSVal.obj [("a", JSVal.obj [("b", JSVal.str "x")]), ("c", JSVal.num 0)])
     ["a.b", "c"] "a.b" (by decide) (by decide)⟩

/-! # Lemmas on mapping trees and merge -/

theorem lookupKey_mergeDest : ∀ (ds ss : List (String × JVal)) (k : String),
    lookupKey (mergeDest ds ss) k =
      match lookupKey ds k with
      | some dv =>
          some (match lookupKey ss k with
                | some sv => mergeJ dv sv
                | none => dv)
      | none => none := by
  intro ds ss k
  induction ds with
  | nil => rfl
  | cons kv rest ih =>
      obtain ⟨k1, dv1⟩ := kv
      by_cases h : k1 = k
      · subst h
        simp [mergeDest, lookupKey]
      · simp [mergeDest, lookupKey, h, ih]

theorem lookupKey_filterNew : ∀ (ds ss : List (String × JVal)) (k : String),
    lookupKey ds k = none →
    lookupKey (ss.filter (fun kv => (lookupKey ds kv.1).isNone)) k = lookupKey ss k := by
  intro ds ss k hd
  induction ss with
  | nil => rfl
  | cons kv rest ih =>
      obtain ⟨k1, sv1⟩ := kv
      by_cases h : k1 = k
      · subst h
        simp [List.filter_cons, hd, lookupKey]
      · by_cases h2 : (lookupKey ds k1).isNone
        · simp only [List.filter_cons, h2, if_true, lookupKey, h, if_false]
          exact ih
        · simp only [List.filter_cons, h2]
          rw [if_neg (by simp)]
          rw [ih]
          simp only [lookupKey]
          rw [if_neg h]

theorem lookupKey_append : ∀ (l1 l2 : List (String × JVal)) (k : String),
    lookupKey (l1 ++ l2) k =
      match lookupKey l1 k with
      | some v => some v
      | none => lookupKey l2 k := by
  intro l1 l2 k
  induction l1 with
  | nil => rfl
  | cons kv rest ih =>
      obtain ⟨k1, v1⟩ := kv
      by_cases h : k1 = k
      · simp [lookupKey, h]
      · simp [lookupKey, h, ih]

theorem lookupKey_mergeObj : ∀ (ds ss : List (String × JVal)) (k : String),
    lookupKey (mergeDest ds ss ++ ss.filter (fun kv => (lookupKey ds kv.1).isNone)) k =
      match lookupKey ds k, lookupKey ss k with
      | some dv, some sv => some (mergeJ dv sv)
      | some dv, none => some dv
      | none, some sv => some sv
      | none, none => none := by
  intro ds ss k
  rw [lookupKey_append, lookupKey_mergeDest]
  cases hd : lookupKey ds k with
  | some dv => cases hs : lookupKey ss k <;> simp
  | none =>
      rw [lookupKey_filterNew ds ss k hd]
      cases hs : lookupKey ss k <;> simp

theorem mergeJ_obj_obj (ds ss : List (String × JVal)) :
    mergeJ (JVal.obj ds) (JVal.obj ss) =
      JVal.obj (mergeDest ds ss ++ ss.filter (fun kv => (lookupKey ds kv.1).isNone)) := rfl

theorem descend_nestSegs : ∀ (segs : List String) (l : JVal), segs ≠ [] →
    descendProps (nestSegs segs l) segs = some l := by
  intro segs
  induction segs with
  | nil => intro l h; exact absurd rfl h
  | cons k rest ih =>
      intro l _
      cases rest with
      | nil => simp [nestSegs, wrapValue, descendProps, lookupKey]
      | cons k2 r2 =>
          simp only [nestSegs, wrapValue, descendProps, lookupKey, if_pos rfl]
          exact ih l (by simp)

theorem chainFree_empty_obj : ∀ (segs : List String), segs ≠ [] →
    chainFree (JVal.obj []) segs = true := by
  intro segs h
  cases segs with
  | nil => exact absurd rfl h
  | cons k rest => cases rest <;> simp [chainFree, lookupKey]

theorem chainFree_nestSegs : ∀ (q p : List String) (l : JVal),
    segIndep p q = true → chainFree (nestSegs q l) p = true := by
  intro q
  induction q with
  | nil => intro p l h; cases p <;> simp [segIndep] at h
  | cons kq qrest ih =>
      intro p l h
      cases p with
      | nil => simp [segIndep] at h
      | cons kp prest =>
          simp only [segIndep] at h
          by_cases hk : kp = kq
          · rw [if_pos (hk ▸ rfl)] at h
            subst hk
            cases qrest with
            | nil => cases prest <;> simp [segIndep] at h
            | cons q2 qr2 =>
                cases prest with
                | nil => simp [segIndep] at h
                | cons p2 pr2 =>
                    simp only [nestSegs, wrapValue, chainFree, lookupKey, if_pos rfl]
                    exact ih (p2 :: pr2) l h
          · cases qrest with
            | nil =>
                cases prest <;> simp [nestSegs, wrapValue, chainFree, lookupKey, Ne.symm hk]
            | cons q2 qr2 =>
                cases prest <;> simp [nestSegs, wrapValue, chainFree, lookupKey, Ne.symm hk]

theorem descend_merge_chain : ∀ (segs : List String) (a l : JVal),
    chainFree a segs = true →
    descendProps (mergeJ a (nestSegs segs l)) segs = some l := by
  intro segs
  induction segs with
  | nil => intro a l h; simp [chainFree] at h
  | cons k rest ih =>
      intro a l h
      cases rest with
      | nil =>
          cases a with
          | str s =>
              simp [nestSegs, wrapValue, mergeJ, descendProps, lookupKey]
          | obj fs =>
              simp only [chainFree] at h
              simp only [nestSegs, wrapValue, mergeJ_obj_obj, descendProps]
              rw [lookupKey_mergeObj]
              rw [Option.isNone_iff_eq_none] at h
              simp [h, lookupKey]
      | cons k2 r2 =>
          cases a with
          | str s =>
              show descendProps (nestSegs (k :: k2 :: r2) l) (k :: k2 :: r2) = some l
              exact descend_nestSegs _ l (by simp)
          | obj fs =>
              simp only [chainFree] at h
              simp only [nestSegs, wrapValue, mergeJ_obj_obj, descendProps]
              rw [lookupKey_mergeObj]
              cases hd : lookupKey fs k with
              | none =>
                  simp only [lookupKey, if_pos rfl]
                  simp [lookupKey, descend_nestSegs (k2 :: r2) l (by simp)]
              | some w =>
                  simp only [hd] at h
                  simp only [lookupKey, if_pos rfl]
                  cases w with
                  | str s1 =>
                      simp [mergeJ, lookupKey, descend_nestSegs (k2 :: r2) l (by simp)]
                  | obj gs =>
                      simp only [if_true, mergeJ_obj_obj]
                      rw [lookupKey_mergeObj]
                      cases hp : lookupKey gs "properties" with
                      | none =>
                          simp [lookupKey, descend_nestSegs (k2 :: r2) l (by simp)]
                      | some pv =>
                          simp only [hp] at h
                          simp only [lookupKey, if_pos rfl, if_true]
                          exact ih pv l h

theorem nestSegs_cons_shape (kq : String) (qrest : List String) (lq : JVal) :
    ∃ X, nestSegs (kq :: qrest) lq = JVal.obj [(kq, X)] := by
  cases qrest <;> exact ⟨_, rfl⟩

theorem descend_merge_indep : ∀ (p q : List String) (a lp lq : JVal),
    segIndep p q = true →
    descendProps a p = some lp →
    descendProps (mergeJ a (nestSegs q lq)) p = some lp := by
  intro p
  induction p with
  | nil => intro q a lp lq h hd; cases q <;> simp [segIndep] at h
  | cons kp prest ih =>
      intro q a lp lq h hd
      cases q with
      | nil => simp [segIndep] at h
      | cons kq qrest =>
          simp only [segIndep] at h
          cases a with
          | str s => simp [descendProps] at hd
          | obj fs =>
              by_cases hk : kp = kq
              · rw [if_pos (hk ▸ rfl)] at h
                subst hk
                cases qrest with
                | nil => cases prest <;> simp [segIndep] at h
                | cons q2 qr2 =>
                    cases prest with
                    | nil => simp [segIndep] at h
                    | cons p2 pr2 =>
                        simp only [descendProps] at hd
                        cases hfs : lookupKey fs kp with
                        | none => simp [hfs] at hd
                        | some w =>
                            simp only [hfs] at hd
                            cases w with
                            | str s1 => simp at hd
                            | obj gs =>
                                cases hgp : lookupKey gs "properties" with
                                | none => simp [hgp] at hd
                                | some pv =>
                                    simp only [hgp] at hd
                                    simp only [nestSegs, wrapValue, mergeJ_obj_obj,
                                      descendProps]
                                    rw [lookupKey_mergeObj]
                                    simp only [hfs, lookupKey, if_pos rfl, if_true]
                                    simp only [mergeJ_obj_obj]
                                    rw [lookupKey_mergeObj]
                                    simp only [hgp, lookupKey, if_pos rfl, if_true]
                                    exact ih (q2 :: qr2) pv lp lq h hd
              · obtain ⟨X, hX⟩ := nestSegs_cons_shape kq qrest lq
                rw [hX]
                have hss : lookupKey [(kq, X)] kp = none := by
                  simp [lookupKey, Ne.symm hk]
                cases prest with
                | nil =>
                    simp only [descendProps] at hd
                    simp only [mergeJ_obj_obj, descendProps]
                    rw [lookupKey_mergeObj]
                    simp only [hd, hss]
                | cons p2 pr2 =>
                    simp only [descendProps] at hd ⊢
                    rw [lookupKey_mergeObj]
                    simp only [hss]
                    cases hfs : lookupKey fs kp with
                    | none => simp [hfs] at hd
                    | some w =>
                        simp only [hfs] at hd
                        exact hd

theorem chainFree_merge_indep : ∀ (p q : List String) (a lq : JVal),
    segIndep p q = true →
    chainFree a p = true →
    chainFree (mergeJ a (nestSegs q lq)) p = true := by
  intro p
  induction p with
  | nil => intro q a lq h hf; simp [chainFree] at hf
  | cons kp prest ih =>
      intro q a lq h hf
      cases q with
      | nil => simp [segIndep] at h
      | cons kq qrest =>
          simp only [segIndep] at h
          cases a with
          | str s =>
              show chainFree (nestSegs (kq :: qrest) lq) (kp :: prest) = true
              apply chainFree_nestSegs
              simp only [segIndep]
              exact h
          | obj fs =>
              by_cases hk : kp = kq
              · rw [if_pos (hk ▸ rfl)] at h
                subst hk
                cases qrest with
                | nil => cases prest <;> simp [segIndep] at h
                | cons q2 qr2 =>
                    cases prest with
                    | nil => simp [segIndep] at h
                    | cons p2 pr2 =>
                        simp only [chainFree] at hf
                        simp only [nestSegs, wrapValue, mergeJ_obj_obj, chainFree]
                        rw [lookupKey_mergeObj]
                        cases hfs : lookupKey fs kp with
                        | none =>
                            simp only [lookupKey, if_pos rfl, if_true]
                            exact chainFree_nestSegs (q2 :: qr2) (p2 :: pr2) lq h
                        | some w =>
                            simp only [hfs] at hf
                            simp only [lookupKey, if_pos rfl, if_true]
                            cases w with
                            | str s1 =>
                                simp only [mergeJ]
                                simp only [lookupKey, if_pos rfl, if_true]
                                exact chainFree_nestSegs (q2 :: qr2) (p2 :: pr2) lq h
                            | obj gs =>
                                simp only [mergeJ_obj_obj]
                                rw [lookupKey_mergeObj]
                                cases hgp : lookupKey gs "properties" with
                                | none =>
                                    simp only [lookupKey, if_pos rfl, if_true]
                                    exact chainFree_nestSegs (q2 :: qr2) (p2 :: pr2) lq h
                                | some pv =>
                                    simp only [hgp] at hf
                                    simp only [lookupKey, if_pos rfl, if_true]
                                    exact ih (q2 :: qr2) pv lq h hf
              · obtain ⟨X, hX⟩ := nestSegs_cons_shape kq qrest lq
                rw [hX]
                have hss : lookupKey [(kq, X)] kp = none := by
                  simp [lookupKey, Ne.symm hk]
                cases prest with
                | nil =>
                    simp only [chainFree] at hf ⊢
                    rw [lookupKey_mergeObj]
                    simp only [hss]
                    rw [Option.isNone_iff_eq_none] at hf
                    simp [hf]
                | cons p2 pr2 =>
                    simp only [chainFree] at hf ⊢
                    rw [lookupKey_mergeObj]
                    simp only [hss]
                    cases hfs : lookupKey fs kp with
                    | none => simp
                    | some w =>
                        simp only [hfs] at hf
                        cases w with
                        | str s1 => simp
                        | obj gs => simpa using hf

theorem renderNested_fold_preserves :
    ∀ (pms : List (String × JVal)) (acc : JVal) (p : List String) (lp : JVal),
      (∀ kv ∈ pms, segIndep p (splitDots kv.1) = true) →
      descendProps acc p = some lp →
      descendProps
        (pms.foldl (fun acc2 kv => mergeJ acc2 (nestSegs (splitDots kv.1) kv.2)) acc) p =
        some lp := by
  intro pms
  induction pms with
  | nil => intro acc p lp _ hd; exact hd
  | cons kv0 rest ih =>
      intro acc p lp hall hd
      simp only [List.foldl_cons]
      exact ih _ p lp (fun r hr => hall r (List.mem_cons_of_mem kv0 hr))
        (descend_merge_indep p (splitDots kv0.1) acc lp kv0.2
          (hall kv0 (List.mem_cons_self kv0 rest)) hd)

theorem renderNested_go :
    ∀ (pms : List (String × JVal)) (acc : JVal),
      pairwiseIndep (pms.map (fun kv2 => splitDots kv2.1)) = true →
      (∀ kv ∈ pms, chainFree acc (splitDots kv.1) = true) →
      ∀ kv ∈ pms,
        descendProps
          (pms.foldl (fun acc2 kv2 => mergeJ acc2 (nestSegs (splitDots kv2.1) kv2.2)) acc)
          (splitDots kv.1) = some kv.2 := by
  intro pms
  induction pms with
  | nil => intro acc _ _ kv hkv; exact absurd hkv (List.not_mem_nil kv)
  | cons kv0 rest ih =>
      intro acc hpw hfree kv hkv
      have hall : ∀ r ∈ rest, segIndep (splitDots kv0.1) (splitDots r.1) = true := by
        intro r hr
        have h2 := hpw
        simp only [List.map_cons, pairwiseIndep, Bool.and_eq_true, List.all_eq_true] at h2
        exact h2.1 (splitDots r.1) (List.mem_map_of_mem (fun kv2 => splitDots kv2.1) hr)
      have hpw2 : pairwiseIndep (rest.map (fun kv2 => splitDots kv2.1)) = true := by
        simp only [List.map_cons, pairwiseIndep, Bool.and_eq_true] at hpw
        exact hpw.2
      simp only [List.foldl_cons]
      rcases List.mem_cons.mp hkv with hkv0 | hkvr
      · subst hkv0
        exact renderNested_fold_preserves rest _ (splitDots kv.1) kv.2 hall
          (descend_merge_chain (splitDots kv.1) acc kv.2
            (hfree kv (List.mem_cons_self kv rest)))
      · apply ih (mergeJ acc (nestSegs (splitDots kv0.1) kv0.2)) hpw2 _ kv hkvr
        intro r hr
        apply chainFree_merge_indep (splitDots r.1) (splitDots kv0.1) acc kv0.2
        · rw [segIndep_symm]
          exact hall r hr
        · exact hfree r (List.mem_cons_of_mem kv0 hr)

theorem splitDotsChars_no_dot : ∀ (cs : List Char) (seg : List Char),
    seg ∈ splitDotsChars cs → '.' ∉ seg := by
  intro cs
  induction cs with
  | nil =>
      intro seg hs
      simp only [splitDotsChars, List.mem_singleton] at hs
      subst hs
      simp
  | cons c rest ih =>
      intro seg hs
      simp only [splitDotsChars] at hs
      by_cases h : c = '.'
      · rw [if_pos h] at hs
        rcases List.mem_cons.mp hs with h1 | h1
        · subst h1; simp
        · exact ih seg h1
      · rw [if_neg h] at hs
        cases hrec : splitDotsChars rest with
        | nil => exact absurd hrec (splitDotsChars_ne_nil rest)
        | cons s1 ss =>
            rw [hrec] at hs
            rcases List.mem_cons.mp hs with h1 | h1
            · subst h1
              intro hmem
              rcases List.mem_cons.mp hmem with h2 | h2
              · exact h h2.symm
              · exact ih s1 (by rw [hrec]; exact List.mem_cons_self s1 ss) h2
            · exact ih seg (by rw [hrec]; exact List.mem_cons_of_mem s1 h1)

theorem splitDots_no_dot : ∀ (s : String) (seg : String), seg ∈ splitDots s →
    seg.data.contains '.' = false := by
  intro s seg hs
  unfold splitDots at hs
  rcases List.mem_map.mp hs with ⟨cs, hcs, heq⟩
  subst heq
  have hnm : '.' ∉ cs := splitDotsChars_no_dot s.data cs hcs
  simpa using hnm

theorem keysNoDotList_append : ∀ (l1 l2 : List (String × JVal)),
    keysNoDotList l1 = true → keysNoDotList l2 = true →
    keysNoDotList (l1 ++ l2) = true := by
  intro l1 l2 h1 h2
  induction l1 with
  | nil => exact h2
  | cons kv rest ih =>
      obtain ⟨k, v⟩ := kv
      simp only [keysNoDotList, Bool.and_eq_true] at h1
      simp only [List.cons_append, keysNoDotList, Bool.and_eq_true]
      exact ⟨h1.1, ih h1.2⟩

theorem keysNoDotList_filter : ∀ (l : List (String × JVal)) (pred : String × JVal → Bool),
    keysNoDotList l = true → keysNoDotList (l.filter pred) = true := by
  intro l pred h
  induction l with
  | nil => rfl
  | cons kv rest ih =>
      obtain ⟨k, v⟩ := kv
      simp only [keysNoDotList, Bool.and_eq_true] at h
      by_cases hp : pred (k, v)
      · rw [List.filter_cons, if_pos hp]
        simp only [keysNoDotList, Bool.and_eq_true]
        exact ⟨h.1, ih h.2⟩
      · rw [List.filter_cons, if_neg hp]
        exact ih h.2

theorem keysNoDot_lookup : ∀ (l : List (String × JVal)) (k : String) (v : JVal),
    keysNoDotList l = true → lookupKey l k = some v → keysNoDot v = true := by
  intro l k v h hl
  induction l with
  | nil => simp [lookupKey] at hl
  | cons kv rest ih =>
      obtain ⟨k1, v1⟩ := kv
      simp only [keysNoDotList, Bool.and_eq_true] at h
      simp only [lookupKey] at hl
      by_cases hk : k1 = k
      · rw [if_pos hk] at hl
        cases hl
        exact h.1.2
      · rw [if_neg hk] at hl
        exact ih h.2 hl

mutual

theorem keysNoDot_mergeJ : ∀ (a b : JVal), keysNoDot a = true → keysNoDot b = true →
    keysNoDot (mergeJ a b) = true
  | JVal.str _, _, _, hb => hb
  | JVal.obj _, JVal.str _, _, hb => hb
  | JVal.obj ds, JVal.obj ss, ha, hb => by
      simp only [mergeJ_obj_obj, keysNoDot]
      apply keysNoDotList_append
      · exact keysNoDot_mergeDest ds ss ha hb
      · exact keysNoDotList_filter ss _ hb

theorem keysNoDot_mergeDest : ∀ (ds ss : List (String × JVal)),
    keysNoDotList ds = true → keysNoDotList ss = true →
    keysNoDotList (mergeDest ds ss) = true
  | [], _, _, _ => rfl
  | (k, dv) :: rest, ss, hd, hs => by
      simp only [keysNoDotList, Bool.and_eq_true] at hd
      simp only [mergeDest, keysNoDotList, Bool.and_eq_true]
      refine ⟨⟨hd.1.1, ?_⟩, keysNoDot_mergeDest rest ss hd.2 hs⟩
      cases hlk : lookupKey ss k with
      | none => exact hd.1.2
      | some sv => exact keysNoDot_mergeJ dv sv hd.1.2 (keysNoDot_lookup ss k sv hs hlk)

end

theorem keysNoDot_nestSegs : ∀ (segs : List String) (l : JVal),
    (∀ seg ∈ segs, seg.data.contains '.' = false) → keysNoDot l = true →
    keysNoDot (nestSegs segs l) = true := by
  intro segs
  induction segs with
  | nil => intro l _ hl; exact hl
  | cons k rest ih =>
      intro l hseg hl
      have h1 : k.data.contains '.' = false := hseg k (List.mem_cons_self k rest)
      have h1m : '.' ∉ k.data := by simpa using h1
      cases rest with
      | nil =>
          simp [nestSegs, wrapValue, keysNoDot, keysNoDotList, h1m, hl]
      | cons k2 r2 =>
          have h2 := ih l (fun s hs2 => hseg s (List.mem_cons_of_mem k hs2)) hl
          have hprops : ('.' ∉ ("properties" : String).data) := by decide
          simp [nestSegs, wrapValue, keysNoDot, keysNoDotList, h1m, h2, hprops]

theorem keysNoDot_renderNested_go :
    ∀ (pms : List (String × JVal)) (acc : JVal),
      keysNoDot acc = true → leavesNoDot pms = true →
      keysNoDot
        (pms.foldl (fun acc2 kv => mergeJ acc2 (nestSegs (splitDots kv.1) kv.2)) acc) =
        true := by
  intro pms
  induction pms with
  | nil => intro acc ha _; exact ha
  | cons kv0 rest ih =>
      intro acc ha hl
      simp only [leavesNoDot, List.all_cons, Bool.and_eq_true] at hl
      simp only [List.foldl_cons]
      apply ih
      · exact keysNoDot_mergeJ acc (nestSegs (splitDots kv0.1) kv0.2) ha
          (keysNoDot_nestSegs (splitDots kv0.1) kv0.2
            (fun seg hseg => splitDots_no_dot kv0.1 seg hseg) hl.1)
      · exact hl.2

/-! # Claim theorems: dotted-path mapping renderer -/

/-- C5: for schema paths whose split segment lists are pairwise
independent (no path a leading part of another, as holds for the leaf
paths of a schema) and whose leaf mappings carry no dotted keys, the
rendered mapping nests every annotated dotted path of n segments behind
exactly n properties envelopes, one per segment (counting the envelope
of the model-name wrapper), ending in the leaf mapping unchanged:
descendProps crosses exactly one properties envelope between consecutive
segments and returns the original leaf.  No key anywhere in the output
contains a dot. -/
theorem C5_mapping_nesting (modelName : String) (pms : List (String × JVal))
    (kv : String × JVal)
    (hindep : pairwiseIndep (pms.map (fun kv2 => splitDots kv2.1)) = true)
    (hleaf : leavesNoDot pms = true)
    (hmn : modelName.data.contains '.' = false)
    (hkv : kv ∈ pms) :
    descendProps (renderNested pms) (splitDots kv.1) = some kv.2 ∧
    descendProps (renderMappingPlugin modelName pms) (modelName :: splitDots kv.1) =
      some kv.2 ∧
    keysNoDot (renderMappingPlugin modelName pms) = true := by
  have h1 : descendProps (renderNested pms) (splitDots kv.1) = some kv.2 := by
    unfold renderNested
    exact renderNested_go pms (JVal.obj []) hindep
      (fun r _ => chainFree_empty_obj (splitDots r.1) (splitDots_ne_nil r.1)) kv hkv
  refine ⟨h1, ?_, ?_⟩
  · unfold renderMappingPlugin wrapValue
    cases hsd : splitDots kv.1 with
    | nil => exact absurd hsd (splitDots_ne_nil kv.1)
    | cons s1 srest =>
        simp only [descendProps, lookupKey, if_pos rfl, if_true]
        rw [← hsd]
        exact h1
  · have hN : keysNoDot (renderNested pms) = true := by
      unfold renderNested
      exact keysNoDot_renderNested_go pms (JVal.obj []) rfl hleaf
    have hmnm : '.' ∉ modelName.data := by simpa using hmn
    have hprops : ('.' ∉ ("properties" : String).data) := by decide
    simp [renderMappingPlugin, wrapValue, keysNoDot, keysNoDotList, hmnm, hprops, hN]

/-- Witness for C5 at a concrete model and two annotated paths, one of
them the three-segment dotted path a.b.c. -/
theorem C5_mapping_nesting_witness :
    pairwiseIndep (c5pms.map (fun kv2 => splitDots kv2.1)) = true ∧
    leavesNoDot c5pms = true ∧
    ("Cat" : String).data.contains '.' = false ∧
    (("a.b.c", JVal.obj [("type", JVal.str "string")]) ∈ c5pms) ∧
    (descendProps (renderNested c5pms)
        (splitDots ("a.b.c", JVal.obj [("type", JVal.str "string")]).1) =
        some ("a.b.c", JVal.obj [("type", JVal.str "string")]).2 ∧
     descendProps (renderMappingPlugin "Cat" c5pms)
        ("Cat" :: splitDots ("a.b.c", JVal.obj [("type", JVal.str "string")]).1) =
        some ("a.b.c", JVal.obj [("type", JVal.str "string")]).2 ∧
     keysNoDot (renderMappingPlugin "Cat" c5pms) = true) :=
  ⟨by decide, by decide, by decide,
   List.mem_cons_self ("a.b.c", JVal.obj [("type", JVal.str "string")]) _,
   C5_mapping_nesting "Cat" c5pms ("a.b.c", JVal.obj [("type", JVal.str "string")])
     (by decide) (by decide) (by decide)
     (List.mem_cons_self ("a.b.c", JVal.obj [("type", JVal.str "string")]) _)⟩
